import Mathlib

/-!
# Verification of the cross-fitted influence-function estimator

Shallow embedding of the `generalizing_IFs` notebooks: the empirical pmf
lookup, the conditional-mean influence-function loop, the k-fold
aggregation, the KFold split, and the autograd entropy correction.
Floating-point values are modelled as exact rationals (ℚ) for the discrete
conditional-mean estimator and as real numbers (ℝ) for the density /
autograd computations.
-/

namespace GeneralizingIFs

/-- A covariate vector: one row of the (discrete-valued) design matrix. -/
abbrev Cov := List ℚ

/-- Possible failures of the numpy-style pmf lookup.  `indexError` is the raw
out-of-range fault produced by `np.where(...)[0][0]` on an empty match list;
`unobservedQueryPoint` is the labelled error the design document calls for
(the source code never produces it). -/
inductive LookupError where
  | indexError
  | unobservedQueryPoint
  deriving DecidableEq, Repr

/-- `np.where((cats == x).all(axis=1))[0]`: the list of row indices of `cats`
whose row equals `x`. -/
def whereEq (cats : List Cov) (x : Cov) : List ℕ :=
  (List.range cats.length).filter (fun i => cats.getD i [] = x)

/-- `pmf(x, cats, p_cats)` from the notebooks:
`ind = np.where((cats==x).all(axis=1))[0][0]; return p_cats[ind]`.
Taking `[0]` of an empty index array is the raw `indexError`. -/
def pmf (x : Cov) (cats : List Cov) (pcats : List ℚ) : Except LookupError ℚ :=
  match (whereEq cats x).head? with
  | none => .error .indexError
  | some i => .ok (pcats.getD i 0)

/-- `np.unique(X_train, axis=0)`: the distinct rows of the training fold
(modelled by `dedup`; numpy also sorts the rows, but every lookup is by
value, so the ordering of the table is irrelevant). -/
def catsOf (fold : List Cov) : List Cov := fold.dedup

/-- `counts_train / len(X_train)`: the empirical frequency of each distinct
row, aligned with `catsOf`. -/
def pCatsOf (fold : List Cov) : List ℚ :=
  (catsOf fold).map (fun c => (fold.count c : ℚ) / (fold.length : ℚ))

/-- `np.mean` of a list of rationals (0 on the empty list, as `0/0 = 0`). -/
def mean (l : List ℚ) : ℚ := l.sum / (l.length : ℚ)

/-- Body of the influence loop for one held-out observation `(x̃, ỹ)`:
`EY = reg.predict(x̃); y_Ey = ỹ - EY;`
`delta_over_fx = 1/pmf(x̃, cats, p_cats)` if `x̃ == x*` else `0`;
the value appended is `delta_over_fx * y_Ey`.  The pmf lookup's possible
failure propagates. -/
def phiObs (reg : Cov → ℚ) (foldX : List Cov) (xstar : Cov) (xt : Cov) (yt : ℚ) :
    Except LookupError ℚ :=
  let yEy := yt - reg xt
  if xt = xstar then
    match pmf xt (catsOf foldX) (pCatsOf foldX) with
    | .error e => .error e
    | .ok p => .ok ((1 / p) * yEy)
  else
    .ok (0 * yEy)

/-- Final value of the loop variable `phis` in the k-fold notebook: it is
re-assigned (`phis = np.asarray(all_phi)`), not appended to, on every fold,
so after the loop it holds only the LAST fold's per-observation values
(its `[]` initialiser if there are no folds). -/
def phisFinal (allPhiPerFold : List (List ℚ)) : List ℚ := allPhiPerFold.getLastD []

/-- `psi = np.asarray(psis).mean(); phi = phis.mean(); psi_est_updated = psi + phi`
as the k-fold notebook computes it. -/
def psiEstUpdated (psis : List ℚ) (allPhiPerFold : List (List ℚ)) : ℚ :=
  mean psis + mean (phisFinal allPhiPerFold)

/-- Modelled from the spec: the corrected estimate is the plug-in estimate
plus the mean over ALL `k` folds of the per-fold average influence values
(`Ψ̂_upd = Ψ̂ + mean_i(φ_i)`). -/
def psiUpdOfSpec (psis : List ℚ) (allPhiPerFold : List (List ℚ)) : ℚ :=
  mean psis + mean (allPhiPerFold.map mean)

/-- Plug-in estimate: the mean of the per-fold predictions, one per
processed split. -/
def psiHat {α : Type} (predictOfSplit : α → ℚ) (splits : List α) : ℚ :=
  mean (splits.map predictOfSplit)

/- ### Lookup lemmas -/

theorem whereEq_mem {cats : List Cov} {x : Cov} {i : ℕ} (h : i ∈ whereEq cats x) :
    i < cats.length ∧ cats.getD i [] = x := by
  unfold whereEq at h
  rcases List.mem_filter.mp h with ⟨hr, hp⟩
  exact ⟨List.mem_range.mp hr, by simpa using hp⟩

theorem whereEq_ne_nil {cats : List Cov} {x : Cov} (h : x ∈ cats) :
    whereEq cats x ≠ [] := by
  rcases List.mem_iff_getElem.mp h with ⟨i, hi, hget⟩
  intro hnil
  have hmem : i ∈ whereEq cats x := by
    unfold whereEq
    refine List.mem_filter.mpr ⟨List.mem_range.mpr hi, ?_⟩
    simp [List.getD_eq_getElem?_getD, List.getElem?_eq_getElem hi, hget]
  rw [hnil] at hmem
  exact (List.not_mem_nil i) hmem

/-- A successful pmf lookup in a table whose probability column is `g` mapped
over the category column returns `g x`. -/
theorem pmf_lookup_mem (g : Cov → ℚ) {cats : List Cov} {x : Cov} (h : x ∈ cats) :
    pmf x cats (cats.map g) = .ok (g x) := by
  unfold pmf
  rcases List.exists_mem_of_ne_nil _ (whereEq_ne_nil h) with ⟨i, hi⟩
  have hhead : (whereEq cats x).head? ≠ none := by
    intro hn
    exact (whereEq_ne_nil h) (List.head?_eq_none_iff.mp hn)
  rcases Option.ne_none_iff_exists'.mp hhead with ⟨j, hj⟩
  have hjmem : j ∈ whereEq cats x := List.mem_of_mem_head? hj
  rcases whereEq_mem hjmem with ⟨hjlt, hjget⟩
  rw [hj]
  have hmap : (cats.map g).getD j 0 = g x := by
    have hmm : (cats.map g).getD j 0 = g (cats.getD j []) := by
      have hjlt' : j < (cats.map g).length := by simpa using hjlt
      rw [List.getD_eq_getElem _ _ hjlt', List.getD_eq_getElem _ _ hjlt]
      simp
    rw [hmm, hjget]
  show Except.ok ((cats.map g).getD j 0) = Except.ok (g x)
  rw [hmap]

/-- A pmf lookup for a row absent from the table fails with the raw
`indexError`. -/
theorem pmf_lookup_not_mem {cats : List Cov} {x : Cov} (h : x ∉ cats)
    (pcats : List ℚ) : pmf x cats pcats = .error .indexError := by
  unfold pmf
  have hnil : whereEq cats x = [] := by
    rcases List.eq_nil_or_concat (whereEq cats x) with hn | ⟨l, i, hl⟩
    · exact hn
    · exfalso
      have hmem : i ∈ whereEq cats x := by rw [hl]; simp
      rcases whereEq_mem hmem with ⟨hlt, hget⟩
      exact h (hget ▸ (List.getD_eq_getElem _ _ hlt ▸ List.getElem_mem hlt))
  rw [hnil]
  rfl

/- ### Claim theorems on the conditional-mean estimator -/

/-- C1: the k-fold notebook re-assigns `phis` on every fold instead of
accumulating, so the correction added to `psi` is the mean of the LAST
fold's per-observation influence values, not the mean over all folds of the
per-fold averages.  With per-fold values `[0]` and `[2]` the code adds `2`
while the spec's aggregation adds `1`. -/
theorem c1_correction_uses_last_fold_only :
    psiEstUpdated [0, 0] [[0], [2]] = 2 ∧
    psiUpdOfSpec [0, 0] [[0], [2]] = 1 ∧
    psiEstUpdated [0, 0] [[0], [2]] ≠ psiUpdOfSpec [0, 0] [[0], [2]] := by
  refine ⟨?_, ?_, ?_⟩ <;>
    norm_num [psiEstUpdated, psiUpdOfSpec, phisFinal, mean]

/-- C2: when the query covariate vector is absent from the training fold's
table, the pmf lookup fails with the raw out-of-range `indexError` of
`np.where(...)[0][0]`, which is not the labelled "unobserved query point"
error the claim describes. -/
theorem c2_lookup_fails_with_raw_index_error :
    pmf [1] [[(0 : ℚ)]] [1] = .error .indexError ∧
    LookupError.indexError ≠ LookupError.unobservedQueryPoint := by
  exact ⟨rfl, fun hcontra => LookupError.noConfusion hcontra⟩

/-- C4: the conditional-mean influence value is
`(𝟙[x̃ = x*] / P̂(x*)) · (ỹ − estimator(x̃))`: it is `0` whenever the
held-out covariates differ from the query vector, and otherwise equals the
centred outcome scaled by the reciprocal of the query point's empirical
frequency `count(x*)/|fold|` in the training-fold table. -/
theorem c4_phi_conditional_mean (reg : Cov → ℚ) (foldX : List Cov) (xstar xt : Cov) (yt : ℚ) :
    (xt ≠ xstar → phiObs reg foldX xstar xt yt = .ok 0) ∧
    (xt = xstar → xstar ∈ foldX →
      phiObs reg foldX xstar xt yt =
        .ok ((1 / ((foldX.count xstar : ℚ) / (foldX.length : ℚ))) * (yt - reg xt))) := by
  constructor
  · intro hne
    simp [phiObs, hne]
  · intro heq hmem
    subst heq
    have hmem' : xt ∈ catsOf foldX := by
      unfold catsOf
      exact List.mem_dedup.mpr hmem
    have hpmf : pmf xt (catsOf foldX) (pCatsOf foldX) =
        .ok ((foldX.count xt : ℚ) / (foldX.length : ℚ)) := by
      unfold pCatsOf
      exact pmf_lookup_mem _ hmem'
    simp [phiObs, hpmf]

theorem c4_phi_conditional_mean_witness :
    (([1] : Cov) = [1] ∧ ([1] : Cov) ∈ [[(1 : ℚ)], [0]]) ∧
    phiObs (fun _ => 1) [[(1 : ℚ)], [0]] [1] [1] 3 =
      .ok ((1 / (((([[(1 : ℚ)], [0]] : List Cov).count [1] : ℚ) /
        (([[(1 : ℚ)], [0]] : List Cov).length : ℚ)))) * (3 - 1)) := by
  exact ⟨⟨rfl, by decide⟩,
    (c4_phi_conditional_mean (fun _ => 1) [[(1 : ℚ)], [0]] [1] [1] 3).2 rfl (by decide)⟩

/-- C7: the empirical covariate table of a non-empty training fold assigns
to each observed covariate vector the frequency `count/len(fold)` (that is
what a successful pmf lookup returns), and the frequencies over all
distinct vectors sum exactly to 1 in rational arithmetic. -/
theorem c7_frequencies_sum_to_one (fold : List Cov) (h : fold ≠ []) :
    (∀ c ∈ fold, pmf c (catsOf fold) (pCatsOf fold) =
      .ok ((fold.count c : ℚ) / (fold.length : ℚ))) ∧
    (pCatsOf fold).sum = 1 := by
  have hlen : (fold.length : ℚ) ≠ 0 := by
    have : fold.length ≠ 0 := fun hz => h (List.length_eq_zero.mp hz)
    exact_mod_cast Nat.cast_ne_zero.mpr this
  constructor
  · intro c hc
    have hc' : c ∈ catsOf fold := by
      unfold catsOf
      exact List.mem_dedup.mpr hc
    unfold pCatsOf
    exact pmf_lookup_mem _ hc'
  · have h1 : (pCatsOf fold).sum =
        (fold.dedup.map (fun c => (fold.count c : ℚ))).sum * (fold.length : ℚ)⁻¹ := by
      unfold pCatsOf catsOf
      simp only [div_eq_mul_inv]
      exact List.sum_map_mul_right _ _ _
    have hcnt : ∀ x : Cov, fold.count x = @List.count Cov instBEqOfDecidableEq x fold := by
      intro x
      simp only [List.count_eq_countP]
      apply List.countP_congr
      intro b _
      simp [beq_iff_eq]
    have h2 : (fold.dedup.map (fun c => (fold.count c : ℚ))).sum = (fold.length : ℚ) := by
      have hc := List.sum_map_count_dedup_eq_length fold
      have hcast : ((fold.dedup.map (fun x => @List.count Cov instBEqOfDecidableEq x fold)).sum : ℚ)
          = (fold.length : ℚ) := by
        exact_mod_cast congrArg (Nat.cast : ℕ → ℚ) hc
      rw [← hcast, Nat.cast_list_sum, List.map_map]
      apply congrArg List.sum
      apply List.map_congr_left
      intro c _
      exact congrArg (Nat.cast : ℕ → ℚ) (hcnt c)
    rw [h1, h2, mul_inv_cancel₀ hlen]

theorem c7_frequencies_sum_to_one_witness :
    ([[(0 : ℚ)], [0], [1]] : List Cov) ≠ [] ∧
    (pCatsOf [[(0 : ℚ)], [0], [1]]).sum = 1 :=
  ⟨by decide, (c7_frequencies_sum_to_one [[(0 : ℚ)], [0], [1]] (by decide)).2⟩

/-- C9: the plug-in estimate `Ψ̂` is the arithmetic mean of the per-split
predictions, so permuting the order in which the splits are processed
leaves it unchanged (exactly, in rational arithmetic). -/
theorem c9_plug_in_permutation_invariant {α : Type} (predictOfSplit : α → ℚ)
    (splits1 splits2 : List α) (h : splits1.Perm splits2) :
    psiHat predictOfSplit splits1 = psiHat predictOfSplit splits2 := by
  unfold psiHat mean
  have hp : (splits1.map predictOfSplit).Perm (splits2.map predictOfSplit) := h.map _
  rw [hp.sum_eq, hp.length_eq]

theorem c9_plug_in_permutation_invariant_witness :
    ([1, 2, 3] : List ℚ).Perm [3, 1, 2] ∧
    psiHat id [1, 2, 3] = psiHat id [3, 1, 2] :=
  ⟨by decide, c9_plug_in_permutation_invariant id [1, 2, 3] [3, 1, 2] (by decide)⟩

/-- C10: whenever the pmf lookup on a training fold's table succeeds, the
returned frequency is at least `1/len(fold)` and strictly positive (the
matched row occurs at least once in the fold), so the division `1/P̂(x*)`
cannot divide by zero; and the influence computation can only fail when the
held-out covariates equal the query vector (the branch taken otherwise
performs no lookup and returns `ok`). -/
theorem c10_division_by_zero_unreachable (reg : Cov → ℚ) (foldX : List Cov)
    (xstar xt : Cov) (yt : ℚ) (p : ℚ)
    (hok : pmf xt (catsOf foldX) (pCatsOf foldX) = .ok p) :
    (1 / (foldX.length : ℚ) ≤ p ∧ 0 < p) ∧
    (∀ e, phiObs reg foldX xstar xt yt = .error e → xt = xstar) := by
  have hmemcats : xt ∈ catsOf foldX := by
    by_contra hn
    rw [pmf_lookup_not_mem hn] at hok
    exact Except.noConfusion hok
  have hmem : xt ∈ foldX := by
    unfold catsOf at hmemcats
    exact List.mem_dedup.mp hmemcats
  have hpmf : pmf xt (catsOf foldX) (pCatsOf foldX) =
      .ok ((foldX.count xt : ℚ) / (foldX.length : ℚ)) := by
    unfold pCatsOf
    exact pmf_lookup_mem _ hmemcats
  have hpval : p = (foldX.count xt : ℚ) / (foldX.length : ℚ) := by
    rw [hok] at hpmf
    injection hpmf
  have hcount : 1 ≤ foldX.count xt := List.count_pos_iff.mpr hmem
  have hlenpos : 0 < (foldX.length : ℚ) := by
    exact_mod_cast List.length_pos_of_mem hmem
  constructor
  · constructor
    · rw [hpval]
      exact (div_le_div_iff_of_pos_right hlenpos).mpr (by exact_mod_cast hcount)
    · rw [hpval]
      apply div_pos ?_ hlenpos
      exact_mod_cast hcount
  · intro e herr
    by_contra hne
    simp [phiObs, hne] at herr

theorem c10_division_by_zero_unreachable_witness :
    pmf [1] (catsOf [[(1 : ℚ)]]) (pCatsOf [[(1 : ℚ)]]) =
      .ok ((([[(1 : ℚ)]] : List Cov).count [1] : ℚ) / (([[(1 : ℚ)]] : List Cov).length : ℚ)) ∧
    ((1 / (([[(1 : ℚ)]] : List Cov).length : ℚ) ≤
        (([[(1 : ℚ)]] : List Cov).count [1] : ℚ) / (([[(1 : ℚ)]] : List Cov).length : ℚ) ∧
      (0 : ℚ) < (([[(1 : ℚ)]] : List Cov).count [1] : ℚ) / (([[(1 : ℚ)]] : List Cov).length : ℚ)) ∧
     (∀ e, phiObs (fun _ => 0) [[(1 : ℚ)]] [1] [1] 0 = .error e → ([1] : Cov) = [1])) := by
  have hok : pmf [1] (catsOf [[(1 : ℚ)]]) (pCatsOf [[(1 : ℚ)]]) =
      .ok ((([[(1 : ℚ)]] : List Cov).count [1] : ℚ) / (([[(1 : ℚ)]] : List Cov).length : ℚ)) := by
    unfold pCatsOf
    exact pmf_lookup_mem _ (by decide)
  exact ⟨hok, c10_division_by_zero_unreachable (fun _ => 0) [[(1 : ℚ)]] [1] [1] 0 _ hok⟩

/- ### Entropy notebook (generalising_IFs_autograd_tutorial) -/

/-- `nu(a, dx) = -a * torch.log(a/dx)`: the inner transform for Shannon
entropy applied to a discretised density value. -/
noncomputable def nu (a dx : ℝ) : ℝ := -a * Real.log (a / dx)

/-- The outer function `phi(b) = b` (identity, for entropy). -/
def phiOuter (b : ℝ) : ℝ := b

/-- `entropy(p, dx) = phi(nu(p, dx).sum())`. -/
noncomputable def entropy (p : List ℝ) (dx : ℝ) : ℝ :=
  phiOuter ((p.map (fun a => nu a dx)).sum)

/-- `np.exp(kde.score_samples(pts)) * dx`: the discretised density values a
fitted KDE (represented by its log-density `score`) assigns to a list of
points. -/
noncomputable def densityAt (score : ℝ → ℝ) (dx : ℝ) (pts : List ℝ) : List ℝ :=
  pts.map (fun r => Real.exp (score r) * dx)

/-- `y.backward(torch.ones(y.shape))` for `y = f` applied elementwise to the
input tensor `v`: gradient entry `i` is the derivative, with respect to the
`i`-th input, of the sum of all outputs. -/
noncomputable def gradOnes (f : ℝ → ℝ) (v : List ℝ) : List ℝ :=
  (List.range v.length).map
    (fun i => deriv (fun t => ((v.set i t).map f).sum) (v.getD i 0))

/-- The `A` term: the scalar backward pass of `phi` at `(nu p).sum` (cells
13 and 21 of the entropy notebook). -/
noncomputable def A_term (p : List ℝ) (dx : ℝ) : ℝ :=
  deriv phiOuter ((p.map (fun a => nu a dx)).sum)

/-- The `B` term: backward of `nu` at the held-out samples' density values
under the training-split estimate, then `.mean()` (cells 15 and 21). -/
noncomputable def B_term (pxi : List ℝ) (dx : ℝ) : ℝ :=
  (gradOnes (fun a => nu a dx) pxi).sum / (pxi.length : ℝ)

/-- The `C` term: `(p_r * p_r.grad).sum()` after backward of `nu(p_r)` over
the support grid (cells 17 and 21). -/
noncomputable def C_term (p : List ℝ) (dx : ℝ) : ℝ :=
  (List.zipWith (fun a b => a * b) p (gradOnes (fun a => nu a dx) p)).sum

/-- `psi_ds = A * (B - C)`: the per-split influence correction. -/
noncomputable def psiSplitIF (p pxi : List ℝ) (dx : ℝ) : ℝ :=
  A_term p dx * (B_term pxi dx - C_term p dx)

/-- `p_r_ds2 = np.exp(kde_ds1.score_samples(r_ds2)) * dx` exactly as the
source writes it: the grid density for split 2 is taken from `kde_ds1`
(fit on split 1), although `kde_ds2` (fit on split 2) was just fit in the
same cell.  `score1`/`score2` are the two fitted KDEs' log-densities. -/
noncomputable def p_r_ds2 (score1 score2 : ℝ → ℝ) (grid : List ℝ) (dx : ℝ) : List ℝ :=
  densityAt score1 dx grid

/-- `est_ds2 = entropy(p_r_ds2, dx)`: the plug-in estimate for split 2. -/
noncomputable def est_ds2 (score1 score2 : ℝ → ℝ) (grid : List ℝ) (dx : ℝ) : ℝ :=
  entropy (p_r_ds2 score1 score2 grid dx) dx

/-- Modelled from the spec: the plug-in for split 2 is supposed to use the
density estimate fit on split 2 (`kde_ds2`), mirroring `est_ds1`'s use of
`kde_ds1` (out-of-fold roles swapped). -/
noncomputable def est_ds2_intended (score1 score2 : ℝ → ℝ) (grid : List ℝ) (dx : ℝ) : ℝ :=
  entropy (densityAt score2 dx grid) dx

/- ### Autograd lemmas -/

theorem sum_map_set (f : ℝ → ℝ) :
    ∀ (v : List ℝ) (i : ℕ), i < v.length → ∀ t : ℝ,
      ((v.set i t).map f).sum = f t + ((v.map f).sum - f (v.getD i 0)) := by
  intro v
  induction v with
  | nil => intro i hi; exact absurd hi (by simp)
  | cons a w ih =>
      intro i hi t
      cases i with
      | zero =>
          simp only [List.set, List.map_cons, List.sum_cons, List.getD_cons_zero]
          ring
      | succ j =>
          have hj : j < w.length := by simpa using hi
          simp only [List.set, List.map_cons, List.sum_cons, ih j hj t, List.getD_cons_succ]
          ring

theorem gradOnes_eq_map_deriv (f : ℝ → ℝ) (v : List ℝ) :
    gradOnes f v = v.map (deriv f) := by
  apply List.ext_getElem
  · simp [gradOnes]
  · intro i h1 h2
    have hi : i < v.length := by simpa [gradOnes] using h1
    have hfun : (fun t => ((v.set i t).map f).sum) =
        (fun t => f t + ((v.map f).sum - f (v.getD i 0))) :=
      funext (fun t => sum_map_set f v i hi t)
    simp only [gradOnes, List.getElem_map, List.getElem_range]
    rw [hfun, deriv_add_const, List.getD_eq_getElem v 0 hi]

theorem zipWith_mul_map_self (h : ℝ → ℝ) (p : List ℝ) :
    List.zipWith (fun a b => a * b) p (p.map h) = p.map (fun a => a * h a) := by
  induction p with
  | nil => rfl
  | cons a w ih => simp [ih]

/-- C5: for the general (entropy/divergence) functional, the per-split
correction computed by the autograd cells equals `A · (B − C)` with
`A = φ'(∫ν(p))` the outer-function derivative at the integral of the inner
transform of the training-split density, `B` the empirical average over the
held-out samples of `ν'` at their training-split density values, and
`C = Σ p·ν'(p)` over the training-split density's support grid — where `ν'`
is the true derivative of `ν`. -/
theorem c5_correction_is_A_mul_B_sub_C (p pxi : List ℝ) (dx : ℝ) :
    psiSplitIF p pxi dx =
      deriv phiOuter ((p.map (fun a => nu a dx)).sum) *
        ((pxi.map (fun a => deriv (fun t => nu t dx) a)).sum / (pxi.length : ℝ) -
         (p.map (fun a => a * deriv (fun t => nu t dx) a)).sum) := by
  unfold psiSplitIF A_term B_term C_term
  rw [gradOnes_eq_map_deriv, gradOnes_eq_map_deriv, zipWith_mul_map_self]

/-- C3: the plug-in estimate for split 2 in the entropy notebook does not
depend on `kde_ds2` at all — it is computed from `kde_ds1`'s density — and
on a concrete pair of fitted log-densities (constant `0` for split 1,
constant `1` for split 2, grid `[0]`, `dx = 1`) it gives `0` while the
plug-in from split 2's own density estimate gives `-e`. -/
theorem c3_est_ds2_built_from_kde_ds1 :
    (∀ (s1 s2 s2' : ℝ → ℝ) (grid : List ℝ) (dx : ℝ),
      est_ds2 s1 s2 grid dx = est_ds2 s1 s2' grid dx) ∧
    est_ds2 (fun _ => 0) (fun _ => 1) [0] 1 = 0 ∧
    est_ds2_intended (fun _ => 0) (fun _ => 1) [0] 1 = -(Real.exp 1) ∧
    est_ds2 (fun _ => 0) (fun _ => 1) [0] 1 ≠
      est_ds2_intended (fun _ => 0) (fun _ => 1) [0] 1 := by
  have hcode : est_ds2 (fun _ => 0) (fun _ => 1) [0] 1 = 0 := by
    simp [est_ds2, p_r_ds2, densityAt, entropy, phiOuter, nu, Real.exp_zero, Real.log_one]
  have hintended : est_ds2_intended (fun _ => 0) (fun _ => 1) [0] 1 = -(Real.exp 1) := by
    simp [est_ds2_intended, densityAt, entropy, phiOuter, nu, Real.log_exp]
  refine ⟨fun s1 s2 s2' grid dx => rfl, hcode, hintended, ?_⟩
  rw [hcode, hintended]
  have hpos := Real.exp_pos 1
  intro hcontra
  linarith

/- ### The KFold split (`KFold(n_splits=k, shuffle=True)`) and the
tutorial's two-way half split -/

/-- sklearn's fold sizes: every fold has `n // k` samples, and the first
`n % k` folds get one extra. -/
def foldSize (n k i : ℕ) : ℕ := n / k + if i < n % k then 1 else 0

/-- Start position of fold `i` within the shuffled index order. -/
def foldStart (n k i : ℕ) : ℕ := (Finset.range i).sum (foldSize n k)

/-- The block of consecutive positions fold `i` occupies in the shuffled
order. -/
def posBlock (n k i : ℕ) : Finset ℕ :=
  Finset.Ico (foldStart n k i) (foldStart n k i + foldSize n k i)

/-- Fold `i` as a set of sample indices: sample `j` belongs to fold `i` iff
its position under the shuffle permutation falls in fold `i`'s block. -/
def foldSet (n k : ℕ) (perm : Equiv.Perm (Fin n)) (i : ℕ) : Finset (Fin n) :=
  Finset.univ.filter (fun j => ((perm.symm j : ℕ) ∈ posBlock n k i))

/-- `X_ds1 = X[: len(X)//2]` of the tutorial, as a set of indices. -/
def halfLo (n : ℕ) : Finset ℕ := Finset.Ico 0 (n / 2)

/-- `X_ds2 = X[len(X)//2 :]` of the tutorial, as a set of indices. -/
def halfHi (n : ℕ) : Finset ℕ := Finset.Ico (n / 2) n

theorem foldSizes_sum (n k : ℕ) (hk : 0 < k) :
    (Finset.range k).sum (foldSize n k) = n := by
  unfold foldSize
  rw [Finset.sum_add_distrib, Finset.sum_const, Finset.card_range, smul_eq_mul]
  have hfil : (Finset.range k).filter (fun i => i < n % k) = Finset.range (n % k) := by
    ext j
    simp only [Finset.mem_filter, Finset.mem_range]
    constructor
    · exact fun hj => hj.2
    · intro hj
      exact ⟨lt_of_lt_of_le hj (le_of_lt (Nat.mod_lt n hk)), hj⟩
  rw [Finset.sum_boole]
  rw [hfil, Finset.card_range]
  simp only [Nat.cast_id]
  exact Nat.div_add_mod n k

theorem foldStart_succ (n k i : ℕ) :
    foldStart n k (i + 1) = foldStart n k i + foldSize n k i :=
  Finset.sum_range_succ _ _

theorem foldStart_mono (n k : ℕ) {i j : ℕ} (h : i ≤ j) :
    foldStart n k i ≤ foldStart n k j := by
  unfold foldStart
  exact Finset.sum_le_sum_of_subset (Finset.range_subset.mpr h)

theorem posBlock_ub (n k : ℕ) (hk : 0 < k) {i : ℕ} (hik : i < k) :
    foldStart n k i + foldSize n k i ≤ n := by
  rw [← foldStart_succ]
  have h := foldStart_mono n k (Nat.succ_le_of_lt hik)
  unfold foldStart at h ⊢
  rw [foldSizes_sum n k hk] at h
  exact h

theorem posBlocks_disjoint (n k : ℕ) {i j : ℕ} (hij : i ≠ j) :
    Disjoint (posBlock n k i) (posBlock n k j) := by
  rw [Finset.disjoint_left]
  intro m hmi hmj
  simp only [posBlock, Finset.mem_Ico] at hmi hmj
  rcases Nat.lt_or_ge i j with hlt | hge
  · have h1 : foldStart n k i + foldSize n k i ≤ foldStart n k j := by
      rw [← foldStart_succ]
      exact foldStart_mono n k hlt
    omega
  · have hlt' : j < i := lt_of_le_of_ne hge (Ne.symm hij)
    have h1 : foldStart n k j + foldSize n k j ≤ foldStart n k i := by
      rw [← foldStart_succ]
      exact foldStart_mono n k hlt'
    omega

theorem card_foldSet (n k : ℕ) (perm : Equiv.Perm (Fin n)) (hk : 0 < k)
    {i : ℕ} (hik : i < k) :
    (foldSet n k perm i).card = foldSize n k i := by
  have hcard : (foldSet n k perm i).card = (posBlock n k i).card := by
    apply Finset.card_bij (fun j _ => (perm.symm j : ℕ))
    · intro a ha
      exact (Finset.mem_filter.mp ha).2
    · intro a _ b _ hab
      exact perm.symm.injective (Fin.val_injective hab)
    · intro m hm
      have hmn : m < n := by
        have := posBlock_ub n k hk hik
        simp only [posBlock, Finset.mem_Ico] at hm
        omega
      refine ⟨perm ⟨m, hmn⟩, ?_, ?_⟩
      · apply Finset.mem_filter.mpr
        refine ⟨Finset.mem_univ _, ?_⟩
        rw [Equiv.symm_apply_apply]
        exact hm
      · rw [Equiv.symm_apply_apply]
  rw [hcard]
  simp [posBlock, Nat.card_Ico]

theorem foldSets_disjoint (n k : ℕ) (perm : Equiv.Perm (Fin n)) {i j : ℕ}
    (hij : i ≠ j) :
    Disjoint (foldSet n k perm i) (foldSet n k perm j) := by
  rw [Finset.disjoint_left]
  intro a hai haj
  have h1 := (Finset.mem_filter.mp hai).2
  have h2 := (Finset.mem_filter.mp haj).2
  exact (Finset.disjoint_left.mp (posBlocks_disjoint n k hij)) h1 h2

/-- C6: for `2 ≤ k ≤ N`, the KFold split yields `k` pairwise disjoint
folds whose cardinalities sum to `N`, which together exhaust the sample
indices, and whose sizes differ by at most one; the tutorial's two-way
half split likewise partitions `{0, …, N−1}` into two disjoint exhaustive
halves of sizes `⌊N/2⌋` and `N − ⌊N/2⌋`, differing by at most one. -/
theorem c6_split_partitions_sample (n k : ℕ) (perm : Equiv.Perm (Fin n))
    (hk : 2 ≤ k) (hkn : k ≤ n) :
    ((Finset.range k).sum (fun i => (foldSet n k perm i).card) = n) ∧
    (∀ i j, i < k → j < k → i ≠ j →
      Disjoint (foldSet n k perm i) (foldSet n k perm j)) ∧
    ((Finset.range k).biUnion (foldSet n k perm) = Finset.univ) ∧
    (∀ i j, i < k → j < k →
      (foldSet n k perm i).card ≤ (foldSet n k perm j).card + 1) ∧
    (Disjoint (halfLo n) (halfHi n) ∧
     halfLo n ∪ halfHi n = Finset.range n ∧
     (halfLo n).card + (halfHi n).card = n ∧
     (halfLo n).card ≤ (halfHi n).card + 1 ∧
     (halfHi n).card ≤ (halfLo n).card + 1) := by
  have hk0 : 0 < k := lt_of_lt_of_le (by norm_num) hk
  have hsum : (Finset.range k).sum (fun i => (foldSet n k perm i).card) = n := by
    have : ∀ i ∈ Finset.range k,
        (foldSet n k perm i).card = foldSize n k i := by
      intro i hi
      exact card_foldSet n k perm hk0 (Finset.mem_range.mp hi)
    rw [Finset.sum_congr rfl this]
    exact foldSizes_sum n k hk0
  refine ⟨hsum, ?_, ?_, ?_, ?_, ?_, ?_, ?_, ?_⟩
  · intro i j _ _ hij
    exact foldSets_disjoint n k perm hij
  · apply Finset.eq_univ_of_card
    rw [Finset.card_biUnion]
    · rw [hsum, Fintype.card_fin]
    · intro i _ j _ hij
      exact foldSets_disjoint n k perm hij
  · intro i j hik hjk
    rw [card_foldSet n k perm hk0 hik, card_foldSet n k perm hk0 hjk]
    unfold foldSize
    split_ifs <;> omega
  · rw [Finset.disjoint_left]
    intro m hm1 hm2
    simp only [halfLo, halfHi, Finset.mem_Ico] at hm1 hm2
    omega
  · unfold halfLo halfHi
    rw [Finset.Ico_union_Ico_eq_Ico (Nat.zero_le _) (Nat.div_le_self n 2)]
    exact (Finset.range_eq_Ico).symm ▸ rfl
  · simp only [halfLo, halfHi, Nat.card_Ico]
    omega
  · simp only [halfLo, halfHi, Nat.card_Ico]
    omega
  · simp only [halfLo, halfHi, Nat.card_Ico]
    omega

theorem c6_split_partitions_sample_witness :
    (2 ≤ 2 ∧ 2 ≤ 4) ∧
    (((Finset.range 2).sum (fun i => (foldSet 4 2 (Equiv.refl (Fin 4)) i).card) = 4) ∧
     (∀ i j, i < 2 → j < 2 → i ≠ j →
       Disjoint (foldSet 4 2 (Equiv.refl (Fin 4)) i) (foldSet 4 2 (Equiv.refl (Fin 4)) j)) ∧
     ((Finset.range 2).biUnion (foldSet 4 2 (Equiv.refl (Fin 4))) = Finset.univ) ∧
     (∀ i j, i < 2 → j < 2 →
       (foldSet 4 2 (Equiv.refl (Fin 4)) i).card ≤ (foldSet 4 2 (Equiv.refl (Fin 4)) j).card + 1) ∧
     (Disjoint (halfLo 4) (halfHi 4) ∧
      halfLo 4 ∪ halfHi 4 = Finset.range 4 ∧
      (halfLo 4).card + (halfHi 4).card = 4 ∧
      (halfLo 4).card ≤ (halfHi 4).card + 1 ∧
      (halfHi 4).card ≤ (halfLo 4).card + 1)) :=
  ⟨⟨by decide, by decide⟩,
    c6_split_partitions_sample 4 2 (Equiv.refl (Fin 4)) (by decide) (by decide)⟩

/- ### The k-fold replicate driver: seeded data generation, shuffled split,
and the estimator loop -/

/-- Dot product of a coefficient vector with a covariate row. -/
def dotProd (a b : List ℚ) : ℚ := (List.zipWith (fun x y => x * y) a b).sum

/-- A `np.random.binomial(1, 0.5)` draw: bit `m` of the seeded stream `g`
(the stream stands for the numpy global RNG state after
`np.random.seed(seed)`). -/
def bit (g : ℕ → ℕ) (m : ℕ) : ℚ := ((g m % 2 : ℕ) : ℚ)

/-- `data_gen(N, beta, seed)` of the k-fold notebook: four Bernoulli(0.5)
covariate columns, the constant and interaction columns, and
`y = X·β + u` with `u = 0.5·randn`.  Each random draw is a function of the
seeded stream `g`; the real-valued Gaussian draw is modelled as the
stream value at a fresh index, scaled by `1/2`.  Returns the rows of
`(X[:, 1:-1], y)`. -/
def dataGen (N : ℕ) (beta : List ℚ) (g : ℕ → ℕ) : List (Cov × ℚ) :=
  (List.range N).map (fun idx =>
    let x1 := bit g (4 * idx)
    let x2 := bit g (4 * idx + 1)
    let x3 := bit g (4 * idx + 2)
    let x4 := bit g (4 * idx + 3)
    let u : ℚ := (g (4 * N + idx) : ℚ) / 2
    let y := dotProd beta [1, x1, x2, x3, x4, x2 * x3] + u
    ([x1, x2, x3, x4], y))

/-- Draw-without-replacement shuffle: `KFold(shuffle=True)` with no
`random_state` permutes the indices using the global numpy RNG — the same
seeded stream — so the permutation is a function of the stream. -/
def shuffleFuel (g : ℕ → ℕ) : ℕ → ℕ → List ℕ → List ℕ
  | 0, _, _ => []
  | fuel + 1, step, l =>
      let i := g step % l.length
      l.getD i 0 :: shuffleFuel g fuel (step + 1) (l.eraseIdx i)

/-- The shuffled index order used by the KFold split. -/
def shuffle (g : ℕ → ℕ) (l : List ℕ) : List ℕ := shuffleFuel g l.length 0 l

/-- Split a list into consecutive chunks of the given sizes: the KFold test
folds, in order, within the shuffled index list. -/
def chunks : List ℕ → List ℕ → List (List ℕ)
  | [], _ => []
  | s :: ss, l => l.take s :: chunks ss (l.drop s)

/-- The `all_phi` list for one fold, propagating a pmf lookup failure. -/
def allPhiList (reg : Cov → ℚ) (foldX : List Cov) (xstar : Cov) :
    List (Cov × ℚ) → Except LookupError (List ℚ)
  | [] => .ok []
  | (xt, yt) :: rest =>
      match phiObs reg foldX xstar xt yt, allPhiList reg foldX xstar rest with
      | .ok v, .ok vs => .ok (v :: vs)
      | .error e, _ => .error e
      | _, .error e => .error e

/-- The fold loop of the k-fold notebook: for each test chunk, fit the
nuisance estimator on the (sorted) complement of the test indices, record
`psi = reg.predict(x*)`, and compute the fold's `all_phi`.  As in the
source, the `phis` variable retains only the LAST processed fold's values.
Returns `(psis, phis)`. -/
def foldLoopRun (fit : List (Cov × ℚ) → Cov → ℚ) (xstar : Cov) (N : ℕ)
    (data : List (Cov × ℚ)) : List (List ℕ) → Except LookupError (List ℚ × List ℚ)
  | [] => .ok ([], [])
  | testIdx :: rest =>
      let trainIdx := (List.range N).filter (fun i => ¬ i ∈ testIdx)
      let train := trainIdx.map (fun i => data.getD i ([], 0))
      let test := testIdx.map (fun i => data.getD i ([], 0))
      let reg := fit train
      let foldX := train.map Prod.fst
      match allPhiList reg foldX xstar test, foldLoopRun fit xstar N data rest with
      | .ok phisThis, .ok (psis, phisLast) =>
          .ok (reg xstar :: psis, if rest.isEmpty then phisThis else phisLast)
      | .error e, _ => .error e
      | _, .error e => .error e

/-- One replicate of the k-fold estimator: seeded data generation, seeded
shuffle, KFold chunks, fold loop, then
`psi = psis.mean(); phi = phis.mean(); psi_est_updated = psi + phi`.
Returns `(Ψ̂, Ψ̂_upd)`.  The nuisance fitting procedure `fit` is a
deterministic function of the training data (`LinearRegression`). -/
def runEstimator (fit : List (Cov × ℚ) → Cov → ℚ) (N k : ℕ) (beta : List ℚ)
    (xstar : Cov) (g : ℕ → ℕ) : Except LookupError (ℚ × ℚ) :=
  let data := dataGen N beta g
  let order := shuffle (fun m => g (5 * N + m)) (List.range N)
  let tests := chunks ((List.range k).map (foldSize N k)) order
  match foldLoopRun fit xstar N data tests with
  | .error e => .error e
  | .ok (psis, phisLast) => .ok (mean psis, mean psis + mean phisLast)

/-- C8: every source of randomness in a replicate — the covariate and noise
draws of `data_gen` and the KFold shuffle — is drawn from the stream fixed
by the seed, and the nuisance fit is a deterministic function of its
training data; hence two runs whose seed streams agree produce identical
plug-in and corrected estimates. -/
theorem c8_deterministic_given_seed (fit : List (Cov × ℚ) → Cov → ℚ)
    (N k : ℕ) (beta : List ℚ) (xstar : Cov) (g1 g2 : ℕ → ℕ)
    (h : ∀ m, g1 m = g2 m) :
    runEstimator fit N k beta xstar g1 = runEstimator fit N k beta xstar g2 := by
  have hg : g1 = g2 := funext h
  rw [hg]

theorem c8_deterministic_given_seed_witness :
    (∀ m : ℕ, (fun m => m + 1) m = (fun m => m + 1) m) ∧
    runEstimator (fun _ _ => 0) 3 2 [1, 1, 1, 1, 1, 1] [0, 0, 0, 0] (fun m => m + 1) =
      runEstimator (fun _ _ => 0) 3 2 [1, 1, 1, 1, 1, 1] [0, 0, 0, 0] (fun m => m + 1) :=
  ⟨fun _ => rfl,
    c8_deterministic_given_seed (fun _ _ => 0) 3 2 [1, 1, 1, 1, 1, 1] [0, 0, 0, 0]
      (fun m => m + 1) (fun m => m + 1) (fun _ => rfl)⟩

end GeneralizingIFs
